import Mathlib

/-!
Shallow embedding of the derivation layer of the FutureArena dashboard
(`src/assets/js/app.js`): record normalization (`dedupeCalendarMap`,
`getCalendarRecords`), streak computation (`computeStreaks`), leaderboard
ranking (`renderLeaderboard`'s sort), series aggregation
(`buildAggregateSeries`), the calendar intensity scalar (`renderCalendar`),
and prediction participant resolution (`renderDailyList`).

JavaScript numbers are modelled as `Int` (day indices) and `ℚ` (scores);
fields whose runtime type is checked (`typeof x !== "number"`) or that may
be absent are modelled as `Option`. `Array.prototype.sort` (stable per the
ECMAScript spec) is modelled by `List.mergeSort`, and JavaScript `Map`
(insertion-ordered, set-replaces-in-place) by an association list with
update-in-place/append semantics.
-/

namespace FutureArena

/-- The `status` enum of a calendar day record. -/
inductive Status where
  | agi
  | evaluating
  | pending
  | missed
deriving DecidableEq, Repr

/-- A raw calendar day record from the feed. `day` is `none` when the field
is missing or non-numeric (the `typeof record.day !== "number"` check). -/
structure RawCalendarRecord where
  day : Option Int
  status : Status
  correct : Option ℚ
  topPerformer : Option String
  note : Option String
deriving DecidableEq, Repr

/-- A canonical calendar day record held in the normalized map: its `day`
is numeric. -/
structure CalendarRecord where
  day : Int
  status : Status
  correct : Option ℚ
  topPerformer : Option String
  note : Option String
deriving DecidableEq, Repr

/-- The record object stored by `map.set(record.day, { ...record })`:
a copy of the raw record, whose day is known to be the number `d`. -/
def copyRecord (r : RawCalendarRecord) (d : Int) : CalendarRecord :=
  ⟨d, r.status, r.correct, r.topPerformer, r.note⟩

/-- A canonical record viewed again as a raw feed record (its `day` is
numeric), used when re-normalizing an already normalized sequence. -/
def toRawRecord (c : CalendarRecord) : RawCalendarRecord :=
  ⟨some c.day, c.status, c.correct, c.topPerformer, c.note⟩

/-- JavaScript `Map.prototype.set`: if the key is present, replace its value
in place (keeping insertion order); otherwise append the new entry. -/
def mapSet {β : Type} (m : List (Int × β)) (k : Int) (v : β) : List (Int × β) :=
  if m.any (fun p => p.1 = k) then
    m.map (fun p => if p.1 = k then (k, v) else p)
  else
    m ++ [(k, v)]

/-- JavaScript `Map.prototype.get` (`undefined` becomes `none`). -/
def mapGet {β : Type} (m : List (Int × β)) (k : Int) : Option β :=
  (m.find? (fun p => p.1 = k)).map Prod.snd

/-- `dedupeCalendarMap` from the source: fold the feed records into a map
keyed by day, skipping records with non-numeric `day` and overwriting on
duplicate days (last-seen-wins). -/
def dedupeCalendarMap (calendarDays : List RawCalendarRecord) :
    List (Int × CalendarRecord) :=
  calendarDays.foldl
    (fun m r =>
      match r.day with
      | none => m
      | some d => mapSet m d (copyRecord r d))
    []

/-- The day-ascending stable sort used by `getCalendarRecords`
(`.sort((a, b) => a.day - b.day)`). -/
def sortByDay (l : List CalendarRecord) : List CalendarRecord :=
  l.mergeSort (fun a b => a.day ≤ b.day)

/-- `getCalendarRecords` from the source: the values of the normalized map
in day-ascending order. -/
def getCalendarRecords (calendarDays : List RawCalendarRecord) :
    List CalendarRecord :=
  sortByDay ((dedupeCalendarMap calendarDays).map Prod.snd)

/-- Result of `computeStreaks`. -/
structure StreakResult where
  current : Nat
  longest : Nat
deriving DecidableEq, Repr

/-- One step of the `sorted.forEach` loop of `computeStreaks`, acting on the
`(longest, running)` accumulator. -/
def streakStep (acc : Nat × Nat) (entry : CalendarRecord) : Nat × Nat :=
  if entry.status = Status.agi then
    (max acc.1 (acc.2 + 1), acc.2 + 1)
  else
    (acc.1, 0)

/-- The backwards `for` loop of `computeStreaks`, counting `agi` records
until the first non-`agi` one; it is run on the reversed sorted list. -/
def currentLoop : List CalendarRecord → Nat
  | [] => 0
  | r :: rest => if r.status = Status.agi then currentLoop rest + 1 else 0

/-- `computeStreaks` from the source. -/
def computeStreaks (records : List CalendarRecord) : StreakResult :=
  if records.isEmpty then ⟨0, 0⟩
  else
    let sorted := sortByDay records
    ⟨currentLoop sorted.reverse, (sorted.foldl streakStep (0, 0)).1⟩

/-- Whether a record counts toward a streak. -/
def isAgi (r : CalendarRecord) : Bool := r.status = Status.agi

/-- Length of the leading contiguous run of `agi` records. -/
def leadAgi (l : List CalendarRecord) : Nat := (l.takeWhile isAgi).length

/-- Specification of the current streak: the length of the trailing
contiguous run of `agi` records ending at the last element. -/
def specCurrent (l : List CalendarRecord) : Nat :=
  (l.reverse.takeWhile isAgi).length

/-- Specification of the longest streak: the maximum, over all suffixes, of
the leading `agi` run length — equivalently, the maximum length of a
maximal contiguous run of `agi` records. -/
def specLongest : List CalendarRecord → Nat
  | [] => 0
  | x :: xs => max (leadAgi (x :: xs)) (specLongest xs)

/-- Helper for relating the `forEach` fold to `specLongest`: the longest
run seen in `l` when a run of length `R` is already open at entry. -/
def runLongest (R : Nat) : List CalendarRecord → Nat
  | [] => 0
  | x :: xs => if isAgi x then max (R + 1) (runLongest (R + 1) xs) else runLongest 0 xs

/-- The pending contribution of an open run of length `R` to `runLongest`. -/
def runCarry (R : Nat) : List CalendarRecord → Nat
  | [] => 0
  | x :: xs => if isAgi x then R + leadAgi (x :: xs) else 0

theorem foldl_streakStep (l : List CalendarRecord) :
    ∀ L R : Nat, (l.foldl streakStep (L, R)).1 = max L (runLongest R l) := by
  induction l with
  | nil => intro L R; simp [runLongest]
  | cons x xs ih =>
    intro L R
    by_cases hx : isAgi x
    · simp only [List.foldl_cons, streakStep, runLongest, isAgi] at *
      simp only [decide_eq_true_eq] at hx
      simp [hx, ih, Nat.max_assoc]
    · simp only [List.foldl_cons, streakStep, runLongest, isAgi] at *
      simp only [decide_eq_true_eq] at hx
      simp [hx, ih]

theorem leadAgi_nil : leadAgi ([] : List CalendarRecord) = 0 := rfl

theorem leadAgi_cons_pos {x : CalendarRecord} {xs : List CalendarRecord}
    (hx : isAgi x = true) : leadAgi (x :: xs) = leadAgi xs + 1 := by
  simp [leadAgi, List.takeWhile_cons, hx]

theorem leadAgi_cons_neg {x : CalendarRecord} {xs : List CalendarRecord}
    (hx : ¬ isAgi x = true) : leadAgi (x :: xs) = 0 := by
  simp [leadAgi, List.takeWhile_cons, hx]

theorem leadAgi_le_specLongest (l : List CalendarRecord) :
    leadAgi l ≤ specLongest l := by
  cases l with
  | nil => simp [leadAgi, specLongest]
  | cons x xs =>
    rw [specLongest]
    exact Nat.le_max_left _ _

theorem runCarry_le_specLongest (l : List CalendarRecord) :
    runCarry 0 l ≤ specLongest l := by
  cases l with
  | nil => simp [runCarry]
  | cons y ys =>
    by_cases hy : isAgi y = true
    · simp only [runCarry, hy, if_true, Nat.zero_add]
      exact leadAgi_le_specLongest (y :: ys)
    · simp [runCarry, hy]

theorem runLongest_eq (l : List CalendarRecord) :
    ∀ R : Nat, runLongest R l = max (specLongest l) (runCarry R l) := by
  induction l with
  | nil => intro R; simp [runLongest, specLongest, runCarry]
  | cons x xs ih =>
    intro R
    by_cases hx : isAgi x = true
    · rw [runLongest, if_pos hx, ih (R + 1)]
      cases xs with
      | nil =>
        simp [specLongest, runCarry, hx, leadAgi_cons_pos hx, leadAgi_nil]
      | cons y ys =>
        have hlx : leadAgi (x :: y :: ys) = leadAgi (y :: ys) + 1 :=
          leadAgi_cons_pos hx
        by_cases hy : isAgi y = true
        · have hly : leadAgi (y :: ys) = leadAgi ys + 1 := leadAgi_cons_pos hy
          simp [specLongest, runCarry, hx, hy, hlx, hly]
          omega
        · have hly : leadAgi (y :: ys) = 0 := leadAgi_cons_neg hy
          simp [specLongest, runCarry, hx, hy, hlx, hly]
          omega
    · rw [runLongest, if_neg hx, ih 0]
      have h1 : runCarry R (x :: xs) = 0 := by simp [runCarry, hx]
      have h2 : specLongest (x :: xs) = max (leadAgi (x :: xs)) (specLongest xs) := by
        rw [specLongest]
      have hlx : leadAgi (x :: xs) = 0 := leadAgi_cons_neg hx
      have hc := runCarry_le_specLongest xs
      rw [h1, h2, hlx]
      omega

theorem currentLoop_eq (l : List CalendarRecord) :
    currentLoop l = (l.takeWhile isAgi).length := by
  induction l with
  | nil => rfl
  | cons x xs ih =>
    by_cases hx : isAgi x
    · have hx' : x.status = Status.agi := by
        simpa [isAgi] using hx
      simp [currentLoop, List.takeWhile, hx, hx', ih]
    · have hx' : ¬ x.status = Status.agi := by
        simpa [isAgi] using hx
      simp [currentLoop, List.takeWhile, hx, hx', ih]

/-- Characterization of `computeStreaks`: on any input it returns the
trailing `agi` run length and the maximal `agi` run length of the
day-ascending sorted sequence. -/
theorem computeStreaks_eq (records : List CalendarRecord) :
    computeStreaks records =
      ⟨specCurrent (sortByDay records), specLongest (sortByDay records)⟩ := by
  by_cases h : records.isEmpty
  · have h' : records = [] := by
      cases records with
      | nil => rfl
      | cons x xs => simp at h
    subst h'
    simp [computeStreaks, sortByDay, specCurrent, specLongest, List.mergeSort]
  · simp only [computeStreaks, h, if_neg, Bool.false_eq_true, not_false_iff]
    refine congrArg₂ StreakResult.mk ?_ ?_
    · rw [currentLoop_eq, specCurrent]
    · rw [foldl_streakStep, runLongest_eq]
      have hcarry := runCarry_le_specLongest (sortByDay records)
      omega

theorem specLongest_cons_le (x : CalendarRecord) (xs : List CalendarRecord) :
    specLongest xs ≤ specLongest (x :: xs) := by
  rw [specLongest]
  exact Nat.le_max_right _ _

theorem specCurrent_le_specLongest (l : List CalendarRecord) :
    specCurrent l ≤ specLongest l := by
  induction l with
  | nil => simp [specCurrent, specLongest]
  | cons x xs ih =>
    by_cases hall : ∀ y ∈ xs, isAgi y = true
    · by_cases hx : isAgi x = true
      · have h1 : specCurrent (x :: xs) ≤ (x :: xs).length := by
          rw [specCurrent]
          have := (List.takeWhile_sublist (l := (x :: xs).reverse) isAgi).length_le
          simpa using this
        have h2 : leadAgi (x :: xs) = (x :: xs).length := by
          rw [leadAgi, List.takeWhile_eq_self_iff.mpr ?_]
          intro y hy
          rcases List.mem_cons.mp hy with h | h
          · exact h ▸ hx
          · exact hall y h
        have h3 := leadAgi_le_specLongest (x :: xs)
        omega
      · have h1 : (x :: xs).reverse.takeWhile isAgi = xs.reverse := by
          rw [List.reverse_cons,
            List.takeWhile_append_of_pos
              (fun a ha => hall a (List.mem_reverse.mp ha))]
          simp [List.takeWhile_cons, hx]
        have h2 : specCurrent (x :: xs) = xs.length := by
          rw [specCurrent, h1, List.length_reverse]
        have h3 : leadAgi xs = xs.length := by
          rw [leadAgi, List.takeWhile_eq_self_iff.mpr hall]
        have h4 := leadAgi_le_specLongest xs
        have h5 := specLongest_cons_le x xs
        omega
    · have h1 : (x :: xs).reverse.takeWhile isAgi = xs.reverse.takeWhile isAgi := by
        rw [List.reverse_cons, List.takeWhile_append, if_neg ?_]
        intro hlen
        have heq : xs.reverse.takeWhile isAgi = xs.reverse :=
          (List.takeWhile_prefix isAgi).eq_of_length hlen
        have hall' := List.takeWhile_eq_self_iff.mp heq
        exact hall fun y hy => hall' y (List.mem_reverse.mpr hy)
      have h2 : specCurrent (x :: xs) = specCurrent xs := by
        rw [specCurrent, h1, specCurrent]
      have h5 := specLongest_cons_le x xs
      omega

/-- The streak example from the spec: statuses by day
`[1:agi, 2:agi, 3:missed, 4:agi]`. -/
def streakExample : List CalendarRecord :=
  [⟨1, Status.agi, none, none, none⟩,
   ⟨2, Status.agi, none, none, none⟩,
   ⟨3, Status.missed, none, none, none⟩,
   ⟨4, Status.agi, none, none, none⟩]

/-- C1: `computeStreaks` returns `current` = the length of the trailing
contiguous run of `agi` records in day-ascending order (0 when the last
record is not `agi`), and `longest` = the maximum length of any maximal
contiguous run of `agi` records in day-ascending order, where only
explicitly present non-`agi` records break a run; the example
`[1:agi, 2:agi, 3:missed, 4:agi]` yields `{current: 1, longest: 2}` and the
empty input yields `{current: 0, longest: 0}`. -/
theorem computeStreaks_matches_spec :
    (∀ records : List CalendarRecord,
      computeStreaks records =
        ⟨specCurrent (sortByDay records), specLongest (sortByDay records)⟩) ∧
    computeStreaks streakExample = ⟨1, 2⟩ ∧
    computeStreaks ([] : List CalendarRecord) = ⟨0, 0⟩ := by
  refine ⟨computeStreaks_eq, ?_, ?_⟩
  · have hs : sortByDay streakExample = streakExample :=
      List.mergeSort_of_sorted (by decide)
    rw [computeStreaks_eq, hs]
    decide
  · decide

/-- C2: for every input, `computeStreaks` returns a result with
`longest ≥ current`. -/
theorem computeStreaks_longest_ge_current (records : List CalendarRecord) :
    (computeStreaks records).current ≤ (computeStreaks records).longest := by
  rw [computeStreaks_eq]
  exact specCurrent_le_specLongest (sortByDay records)

theorem mapGet_mapUpdate {β : Type} (m : List (Int × β)) (k : Int) (v : β) (k' : Int) :
    mapGet (m.map (fun p => if p.1 = k then (k, v) else p)) k' =
      if k' = k then (mapGet m k).map (fun _ => v) else mapGet m k' := by
  have hpred : ∀ p : Int × β,
      decide ((if p.1 = k then (k, v) else p).1 = k') = decide (p.1 = k') := by
    intro p
    by_cases hp : p.1 = k
    · simp [hp]
    · simp [hp]
  rw [mapGet, List.find?_map]
  simp only [Function.comp_def, hpred]
  by_cases hk : k' = k
  · subst hk
    cases hf : m.find? (fun p => decide (p.1 = k')) with
    | none => simp [mapGet, hf]
    | some p =>
      have hp1 : p.1 = k' := by simpa using List.find?_some hf
      simp [mapGet, hf, hp1]
  · cases hf : m.find? (fun p => decide (p.1 = k')) with
    | none => simp [mapGet, hf, hk]
    | some p =>
      have hp1 : p.1 = k' := by simpa using List.find?_some hf
      have hpk : ¬ p.1 = k := by rw [hp1]; exact hk
      simp [mapGet, hf, hk, hpk]

theorem mapGet_mapSet {β : Type} (m : List (Int × β)) (k : Int) (v : β) (k' : Int) :
    mapGet (mapSet m k v) k' = if k' = k then some v else mapGet m k' := by
  rw [mapSet]
  by_cases hany : m.any (fun p => p.1 = k) = true
  · rw [if_pos hany, mapGet_mapUpdate]
    by_cases hk : k' = k
    · obtain ⟨p, hp, hpk⟩ := List.any_eq_true.mp hany
      simp only [decide_eq_true_eq] at hpk
      have : mapGet m k = some p.2 ∨ (∃ q, mapGet m k = some q) := by
        right
        have : (m.find? (fun q => q.1 = k)).isSome := by
          rw [List.find?_isSome]
          exact ⟨p, hp, by simpa using hpk⟩
        rcases Option.isSome_iff_exists.mp this with ⟨q, hq⟩
        exact ⟨q.2, by simp [mapGet, hq]⟩
      rcases this with h | ⟨q, hq⟩
      · simp [hk, h]
      · simp [hk, hq]
    · simp [hk]
  · rw [if_neg hany]
    have hnone : m.find? (fun p => p.1 = k) = none := by
      rw [List.find?_eq_none]
      intro x hx
      simp only [decide_eq_true_eq]
      intro hxk
      exact hany (List.any_eq_true.mpr ⟨x, hx, by simpa using hxk⟩)
    by_cases hk : k' = k
    · subst hk
      simp [mapGet, List.find?_append, hnone]
    · have hne : ¬ (k = k') := fun h => hk h.symm
      simp [mapGet, List.find?_append, hne, hk, Option.or]
      cases m.find? fun p => p.1 = k' <;> simp

/-- The single `forEach` step of `dedupeCalendarMap`. -/
def dedupeStep (m : List (Int × CalendarRecord)) (r : RawCalendarRecord) :
    List (Int × CalendarRecord) :=
  match r.day with
  | none => m
  | some d => mapSet m d (copyRecord r d)

theorem dedupeCalendarMap_eq_foldl (raws : List RawCalendarRecord) :
    dedupeCalendarMap raws = raws.foldl dedupeStep [] := rfl

theorem foldl_dedupeStep_get (raws : List RawCalendarRecord) :
    ∀ (m : List (Int × CalendarRecord)) (k : Int),
      mapGet (raws.foldl dedupeStep m) k =
        ((raws.reverse.find? (fun r => r.day = some k)).map
          (fun r => copyRecord r k)).or (mapGet m k) := by
  induction raws with
  | nil => intro m k; simp
  | cons r rs ih =>
    intro m k
    rw [List.foldl_cons, ih, List.reverse_cons, List.find?_append]
    cases hfind : rs.reverse.find? (fun r => r.day = some k) with
    | some x => simp
    | none =>
      simp only [Option.none_or]
      cases hd : r.day with
      | none =>
        have : dedupeStep m r = m := by rw [dedupeStep, hd]
        rw [this]
        simp [hd]
      | some d =>
        have hstep : dedupeStep m r = mapSet m d (copyRecord r d) := by
          rw [dedupeStep, hd]
        rw [hstep, mapGet_mapSet]
        by_cases hk : k = d
        · subst hk
          simp [hd]
        · have : ¬ (r.day = some k) := by rw [hd]; simpa using fun h => hk h.symm
          simp [this, hk]

/-- Characterization of the normalized mapping: looking up day `k` returns
the last feed record whose `day` is the number `k` (records with
non-numeric `day` never contribute). -/
theorem dedupeCalendarMap_get (raws : List RawCalendarRecord) (k : Int) :
    mapGet (dedupeCalendarMap raws) k =
      (raws.reverse.find? (fun r => r.day = some k)).map
        (fun r => copyRecord r k) := by
  rw [dedupeCalendarMap_eq_foldl, foldl_dedupeStep_get]
  simp [mapGet]

theorem foldl_dedupeStep_filter (raws : List RawCalendarRecord) :
    ∀ m, raws.foldl dedupeStep m =
      (raws.filter (fun r => r.day.isSome)).foldl dedupeStep m := by
  induction raws with
  | nil => intro m; rfl
  | cons r rs ih =>
    intro m
    cases hd : r.day with
    | none =>
      have h1 : dedupeStep m r = m := by rw [dedupeStep, hd]
      have h2 : r.day.isSome = false := by rw [hd]; rfl
      simp only [List.foldl_cons, List.filter_cons, h1, h2]
      exact ih m
    | some d =>
      have h2 : r.day.isSome = true := by rw [hd]; rfl
      simp only [List.foldl_cons, List.filter_cons, h2, if_pos]
      exact ih (dedupeStep m r)

/-- C4: the normalized mapping discards records with non-numeric `day`
silently, and on duplicate days the last record in input order wins: the
lookup of day `k` is exactly the last record of the feed whose `day` is
the number `k` (a copy of it keyed by `k`); filtering out the non-numeric
records beforehand changes nothing. -/
theorem dedupe_lastSeenWins_dropsNonNumeric :
    (∀ (raws : List RawCalendarRecord) (k : Int),
      mapGet (dedupeCalendarMap raws) k =
        (raws.reverse.find? (fun r => r.day = some k)).map
          (fun r => copyRecord r k)) ∧
    (∀ raws : List RawCalendarRecord,
      dedupeCalendarMap raws =
        dedupeCalendarMap (raws.filter (fun r => r.day.isSome))) := by
  refine ⟨dedupeCalendarMap_get, ?_⟩
  intro raws
  rw [dedupeCalendarMap_eq_foldl, dedupeCalendarMap_eq_foldl,
    foldl_dedupeStep_filter]

theorem mapSet_keys {β : Type} (m : List (Int × β)) (k : Int) (v : β) :
    (mapSet m k v).map Prod.fst =
      if m.any (fun p => p.1 = k) then m.map Prod.fst
      else m.map Prod.fst ++ [k] := by
  rw [mapSet]
  split
  · rw [List.map_map]
    apply List.map_congr_left
    intro p _
    by_cases hpk : p.1 = k
    · simp [Function.comp_def, hpk]
    · simp [Function.comp_def, hpk]
  · simp

theorem mapSet_nodupKeys {β : Type} {m : List (Int × β)} (k : Int) (v : β)
    (h : (m.map Prod.fst).Nodup) : ((mapSet m k v).map Prod.fst).Nodup := by
  rw [mapSet_keys]
  split
  · exact h
  · rename_i hany
    have hk : k ∉ m.map Prod.fst := by
      intro hmem
      obtain ⟨p, hp, hpk⟩ := List.mem_map.mp hmem
      exact hany (List.any_eq_true.mpr ⟨p, hp, by simpa using hpk⟩)
    simp [List.nodup_append, h, hk]

theorem mapSet_dayInv {m : List (Int × CalendarRecord)} {k : Int}
    {v : CalendarRecord} (hv : v.day = k)
    (h : ∀ p ∈ m, p.2.day = p.1) :
    ∀ p ∈ mapSet m k v, p.2.day = p.1 := by
  rw [mapSet]
  split
  · intro p hp
    obtain ⟨q, hq, rfl⟩ := List.mem_map.mp hp
    by_cases hqk : q.1 = k
    · simp [hqk, hv]
    · simpa [hqk] using h q hq
  · intro p hp
    rcases List.mem_append.mp hp with h1 | h1
    · exact h p h1
    · have : p = (k, v) := by simpa using h1
      rw [this, hv]

theorem foldl_dedupeStep_inv (raws : List RawCalendarRecord) :
    ∀ m : List (Int × CalendarRecord),
      (m.map Prod.fst).Nodup → (∀ p ∈ m, p.2.day = p.1) →
      ((raws.foldl dedupeStep m).map Prod.fst).Nodup ∧
        ∀ p ∈ raws.foldl dedupeStep m, p.2.day = p.1 := by
  induction raws with
  | nil => intro m h1 h2; exact ⟨h1, h2⟩
  | cons r rs ih =>
    intro m h1 h2
    rw [List.foldl_cons]
    cases hd : r.day with
    | none =>
      have hstep : dedupeStep m r = m := by rw [dedupeStep, hd]
      rw [hstep]
      exact ih m h1 h2
    | some d =>
      have hstep : dedupeStep m r = mapSet m d (copyRecord r d) := by
        rw [dedupeStep, hd]
      rw [hstep]
      exact ih _ (mapSet_nodupKeys d _ h1) (mapSet_dayInv rfl h2)

theorem dedupe_nodupKeys (raws : List RawCalendarRecord) :
    ((dedupeCalendarMap raws).map Prod.fst).Nodup :=
  (foldl_dedupeStep_inv raws [] (by simp) (by simp)).1

theorem dedupe_dayInv (raws : List RawCalendarRecord) :
    ∀ p ∈ dedupeCalendarMap raws, p.2.day = p.1 :=
  (foldl_dedupeStep_inv raws [] (by simp) (by simp)).2

theorem nodupKeys_entry_eq {β : Type} {m : List (Int × β)}
    (h : (m.map Prod.fst).Nodup) :
    ∀ {p q : Int × β}, p ∈ m → q ∈ m → p.1 = q.1 → p = q := by
  induction m with
  | nil => intro p q hp _ _; simp at hp
  | cons a m' ih =>
    intro p q hp hq hpq
    rw [List.map_cons, List.nodup_cons] at h
    rcases List.mem_cons.mp hp with rfl | hp' <;>
      rcases List.mem_cons.mp hq with rfl | hq'
    · rfl
    · exact absurd (List.mem_map.mpr ⟨q, hq', hpq.symm⟩) h.1
    · exact absurd (List.mem_map.mpr ⟨p, hp', hpq⟩) h.1
    · exact ih h.2 hp' hq' hpq

/-- Looking up a day in any permutation of the values of a map whose values
record their own key: the last (indeed only) value with that day is the
map's entry for it. -/
theorem reverse_find_values {m : List (Int × CalendarRecord)}
    {l : List CalendarRecord} (hperm : l.Perm (m.map Prod.snd))
    (hnodup : (m.map Prod.fst).Nodup)
    (hday : ∀ p ∈ m, p.2.day = p.1) (k : Int) :
    l.reverse.find? (fun c => c.day = k) = mapGet m k := by
  cases hget : mapGet m k with
  | none =>
    rw [List.find?_eq_none]
    intro x hx
    rw [List.mem_reverse] at hx
    obtain ⟨p, hp, rfl⟩ := List.mem_map.mp (hperm.mem_iff.mp hx)
    simp only [decide_eq_true_eq]
    intro hdayk
    have h1 : p.1 = k := by rw [← hday p hp, hdayk]
    have h2 : (m.find? (fun q => q.1 = k)).isSome :=
      List.find?_isSome.mpr ⟨p, hp, by simp [h1]⟩
    rw [mapGet] at hget
    cases hf : m.find? (fun q => q.1 = k) with
    | none => rw [hf] at h2; simp at h2
    | some q => rw [hf] at hget; simp at hget
  | some v =>
    rw [mapGet] at hget
    cases hf : m.find? (fun q => q.1 = k) with
    | none => rw [hf] at hget; simp at hget
    | some p =>
      rw [hf] at hget
      have hv : p.2 = v := by simpa using hget
      have hpm : p ∈ m := List.mem_of_find?_eq_some hf
      have hpk : p.1 = k := by simpa using List.find?_some hf
      have hvday : v.day = k := by rw [← hv, hday p hpm, hpk]
      have hvl : v ∈ l.reverse := by
        rw [List.mem_reverse]
        exact hperm.mem_iff.mpr (List.mem_map.mpr ⟨p, hpm, hv⟩)
      have hsome : (l.reverse.find? (fun c => c.day = k)).isSome :=
        List.find?_isSome.mpr ⟨v, hvl, by simp [hvday]⟩
      obtain ⟨y, hy⟩ := Option.isSome_iff_exists.mp hsome
      have hym : y ∈ l.reverse := List.mem_of_find?_eq_some hy
      have hyday : y.day = k := by simpa using List.find?_some hy
      obtain ⟨q, hq, hq2⟩ :=
        List.mem_map.mp (hperm.mem_iff.mp (List.mem_reverse.mp hym))
      have hqk : q.1 = k := by rw [← hday q hq, hq2, hyday]
      have : q = p := nodupKeys_entry_eq hnodup hq hpm (by rw [hqk, hpk])
      rw [hy, ← hq2, this, hv]

/-- C3: normalization is idempotent — re-normalizing the day-ascending
sequence view of a first normalization yields the same day-to-record
mapping. -/
theorem dedupe_idempotent (raws : List RawCalendarRecord) (k : Int) :
    mapGet (dedupeCalendarMap ((getCalendarRecords raws).map toRawRecord)) k =
      mapGet (dedupeCalendarMap raws) k := by
  rw [dedupeCalendarMap_get, ← List.map_reverse, List.find?_map]
  have hpred : ∀ c : CalendarRecord,
      decide ((toRawRecord c).day = some k) = decide (c.day = k) := by
    intro c; simp [toRawRecord]
  simp only [Function.comp_def, hpred]
  have hbridge :
      (getCalendarRecords raws).reverse.find? (fun c => c.day = k) =
        mapGet (dedupeCalendarMap raws) k :=
    reverse_find_values
      (List.mergeSort_perm ((dedupeCalendarMap raws).map Prod.snd) _)
      (dedupe_nodupKeys raws) (dedupe_dayInv raws) k
  rw [← hbridge]
  cases hf : (getCalendarRecords raws).reverse.find? (fun c => decide (c.day = k)) with
  | none => simp
  | some c =>
    have hc : c.day = k := by simpa using List.find?_some hf
    simp only [Option.map_some']
    have : copyRecord (toRawRecord c) k = c := by
      cases c
      simp only [copyRecord, toRawRecord]
      simp_all
    rw [this]

/-- Participant category (`type` field): LLM API or Agent System. -/
inductive PType where
  | LLM
  | Agent
deriving DecidableEq, Repr

/-- One entry of a participant's `performance` array. Fields are `Option`
because `buildAggregateSeries` checks `typeof point.day !== "number"` and
`typeof point.solved !== "number"` before using them. -/
structure PerformancePoint where
  day : Option Int
  solved : Option ℚ
deriving DecidableEq, Repr

/-- A participant record. `agiDays` is optional: the ranking comparator
reads it as `(p.agiDays || 0)`. -/
structure Participant where
  id : String
  name : String
  type : PType
  agiDays : Option Nat
  longestStreak : Option Nat
  performance : List PerformancePoint
deriving DecidableEq, Repr

/-- The ranking key `(p.agiDays || 0)`. -/
def agiDaysVal (p : Participant) : Nat := p.agiDays.getD 0

/-- `renderLeaderboard`'s ranking:
`[...STATE.participants].sort((a, b) => (b.agiDays || 0) - (a.agiDays || 0))`,
a stable sort placing higher `agiDays` first. -/
def rankParticipants (participants : List Participant) : List Participant :=
  participants.mergeSort (fun a b => agiDaysVal b ≤ agiDaysVal a)

/-- The participants of the spec's leaderboard stability example. -/
def exampleA : Participant := ⟨"A", "A", PType.LLM, some 5, none, []⟩

/-- Second tied participant of the leaderboard example. -/
def exampleB : Participant := ⟨"B", "B", PType.LLM, some 5, none, []⟩

/-- Top-scored participant of the leaderboard example. -/
def exampleC : Participant := ⟨"C", "C", PType.LLM, some 7, none, []⟩

theorem rankParticipants_trans :
    ∀ a b c : Participant,
      (agiDaysVal b ≤ agiDaysVal a : Bool) → (agiDaysVal c ≤ agiDaysVal b : Bool) →
      (agiDaysVal c ≤ agiDaysVal a : Bool) := by
  intro a b c hab hbc
  simp only [decide_eq_true_eq] at *
  omega

theorem rankParticipants_total :
    ∀ a b : Participant,
      ((agiDaysVal b ≤ agiDaysVal a : Bool) || (agiDaysVal a ≤ agiDaysVal b : Bool)) := by
  intro a b
  simp only [Bool.or_eq_true, decide_eq_true_eq]
  omega

/-- C5: the leaderboard orders participants by `agiDays` descending, keeps
the original relative order of participants with equal `agiDays` (stable,
deterministic), permutes the input, and ranks the spec's example
`[A:5, B:5, C:7]` as `[C, A, B]`. -/
theorem leaderboard_ranking_spec :
    (∀ ps : List Participant,
      (rankParticipants ps).Pairwise (fun a b => agiDaysVal b ≤ agiDaysVal a)) ∧
    (∀ ps : List Participant, (rankParticipants ps).Perm ps) ∧
    (∀ (ps : List Participant) (v : Nat),
      (rankParticipants ps).filter (fun p => agiDaysVal p = v) =
        ps.filter (fun p => agiDaysVal p = v)) ∧
    rankParticipants [exampleA, exampleB, exampleC] =
      [exampleC, exampleA, exampleB] := by
  refine ⟨?_, ?_, ?_, ?_⟩
  · intro ps
    have h := List.sorted_mergeSort rankParticipants_trans rankParticipants_total ps
    exact h.imp (fun hab => by simpa using hab)
  · intro ps
    exact List.mergeSort_perm ps _
  · intro ps v
    set p : Participant → Bool := fun q => agiDaysVal q = v with hp
    have h1 : List.Sublist (ps.filter p) ps := List.filter_sublist ps
    have h2 : (ps.filter p).Pairwise (fun a b => agiDaysVal b ≤ agiDaysVal a) := by
      apply List.pairwise_of_forall_mem_list
      intro a ha b hb
      have ha' : agiDaysVal a = v := by
        simpa [hp] using (List.mem_filter.mp ha).2
      have hb' : agiDaysVal b = v := by
        simpa [hp] using (List.mem_filter.mp hb).2
      simp [ha', hb']
    have h2' : (ps.filter p).Pairwise
        (fun a b => (agiDaysVal b ≤ agiDaysVal a : Bool)) :=
      h2.imp (fun hab => by simpa using hab)
    have h3 : List.Sublist (ps.filter p) (rankParticipants ps) :=
      List.sublist_mergeSort rankParticipants_trans rankParticipants_total h2' h1
    have h4 : List.Sublist (ps.filter p) ((rankParticipants ps).filter p) := by
      have := h3.filter p
      rwa [List.filter_filter, show (fun a => p a && p a) = p by
        funext a; cases p a <;> simp] at this
    have h5 : ((rankParticipants ps).filter p).length = (ps.filter p).length :=
      ((List.mergeSort_perm ps _).filter p).length_eq
    exact (h4.eq_of_length h5.symm).symm
  · rw [rankParticipants]
    simp [List.mergeSort, List.splitInTwo, List.splitAt_eq, List.merge,
      exampleA, exampleB, exampleC, agiDaysVal]

/-- A prediction attached to a daily challenge. -/
structure Prediction where
  participantId : String
  isCorrect : Bool
deriving DecidableEq, Repr

/-- A daily challenge with its predictions. -/
structure DailyChallenge where
  id : String
  day : Int
  predictions : List Prediction
deriving DecidableEq, Repr

/-- `participantsById.get(id)` where
`participantsById = new Map(STATE.participants.map((p) => [p.id, p]))`:
on duplicate ids the `Map` constructor keeps the last entry. -/
def participantById (participants : List Participant) (pid : String) :
    Option Participant :=
  participants.reverse.find? (fun p => p.id = pid)

/-- A `dayTotals` bucket of `buildAggregateSeries`:
`{ solved, count, max }`. -/
structure Bucket where
  solved : ℚ
  count : Nat
  max : ℚ
deriving DecidableEq, Repr

/-- The `addValue` closure of `buildAggregateSeries` (the `possible`
argument is `10` at every call site). -/
def addValue (m : List (Int × Bucket)) (day : Int) (solved : ℚ) :
    List (Int × Bucket) :=
  let b := (mapGet m day).getD ⟨0, 0, 0⟩
  mapSet m day ⟨b.solved + solved, b.count + 1, max b.max 10⟩

/-- The direct performance contributions `(day, clamp(solved, 0, 10))`, in
visiting order: cohort participants in order, each participant's numeric
performance points in order. -/
def perfEvents (t : PType) (participants : List Participant) :
    List (Int × ℚ) :=
  participants.flatMap (fun p =>
    if p.type = t then
      p.performance.filterMap (fun pt =>
        match pt.day, pt.solved with
        | some d, some s => some (d, min (max s 0) 10)
        | _, _ => none)
    else [])

/-- The challenge-derived contributions `(challenge.day, 10/0)`, in
visiting order: challenges in order, predictions in order, skipping
predictions whose `participantId` resolves to no participant or to a
participant outside the cohort. -/
def predEvents (t : PType) (participants : List Participant)
    (challenges : List DailyChallenge) : List (Int × ℚ) :=
  challenges.flatMap (fun c =>
    c.predictions.filterMap (fun pr =>
      match participantById participants pr.participantId with
      | none => none
      | some pa =>
        if pa.type = t then
          some (c.day, if pr.isCorrect then (10 : ℚ) else 0)
        else none))

/-- `Number(averageSolved.toFixed(2))`: rounding to two decimal places
(round to nearest, ties toward the larger value; every averaged value here
is nonnegative). -/
def round2 (q : ℚ) : ℚ := (⌊q * 100 + 1 / 2⌋ : ℚ) / 100

/-- The final `.map` of `buildAggregateSeries`, turning a `(day, bucket)`
entry into a chart point `(x, y)`. -/
def bucketPoint (p : Int × Bucket) : Int × ℚ :=
  if p.2.count = 0 then (p.1, 0)
  else (p.1, round2 (p.2.solved / p.2.count))

/-- `buildAggregateSeries` from the source: fold every contribution into
per-day buckets, average each bucket, and sort ascending by day. -/
def buildAggregateSeries (t : PType) (participants : List Participant)
    (challenges : List DailyChallenge) : List (Int × ℚ) :=
  let evs := perfEvents t participants ++ predEvents t participants challenges
  let dayTotals := evs.foldl (fun m e => addValue m e.1 e.2) []
  (dayTotals.map bucketPoint).mergeSort (fun a b => a.1 ≤ b.1)

/-- Spec view: the multiset of contribution values for day `d`. -/
def dayContribs (t : PType) (participants : List Participant)
    (challenges : List DailyChallenge) (d : Int) : List ℚ :=
  (((perfEvents t participants).append
      (predEvents t participants challenges)).filter
    (fun e => e.1 = d)).map Prod.snd

/-- Spec view of the aggregate series: one point per day with at least one
contribution, in ascending day order, whose value is the day's average
contribution rounded to two decimals; days without contributions are
omitted. -/
def specSeries (t : PType) (participants : List Participant)
    (challenges : List DailyChallenge) : List (Int × ℚ) :=
  let evs := perfEvents t participants ++ predEvents t participants challenges
  let days := ((evs.map Prod.fst).dedup).mergeSort (fun a b => a ≤ b)
  days.map (fun d =>
    let vals := dayContribs t participants challenges d
    (d, round2 (vals.sum / vals.length)))

/-- How a run of `addValue` calls transforms the bucket stored for one
day: no events and no bucket stay absent, otherwise the sum/count of the
events is folded into the (possibly fresh) bucket with `max` set to 10. -/
def combineBucket (b : Option Bucket) (vs : List ℚ) : Option Bucket :=
  match b, vs with
  | none, [] => none
  | none, vs => some ⟨vs.sum, vs.length, 10⟩
  | some b, [] => some b
  | some b, vs => some ⟨b.solved + vs.sum, b.count + vs.length, max b.max 10⟩

theorem max_zero_ten : max (0 : ℚ) 10 = 10 := by norm_num

theorem max_ten_ten (a : ℚ) : max (max a 10) 10 = max a 10 := by
  rw [max_assoc, max_self]

theorem foldl_addValue_get (evs : List (Int × ℚ)) :
    ∀ (m : List (Int × Bucket)) (d : Int),
      mapGet (evs.foldl (fun m e => addValue m e.1 e.2) m) d =
        combineBucket (mapGet m d)
          ((evs.filter (fun e => e.1 = d)).map Prod.snd) := by
  induction evs with
  | nil =>
    intro m d
    cases h : mapGet m d <;> simp [combineBucket, h]
  | cons e es ih =>
    intro m d
    rw [List.foldl_cons, ih]
    by_cases hd : e.1 = d
    · subst hd
      rw [List.filter_cons_of_pos (by simp), List.map_cons]
      cases hb : mapGet m e.1 with
      | none =>
        have hm : mapGet (addValue m e.1 e.2) e.1 = some ⟨e.2, 1, 10⟩ := by
          rw [addValue, hb, mapGet_mapSet, if_pos rfl]
          simp [Option.getD, max_zero_ten]
        rw [hm]
        cases hvs : (es.filter (fun q => q.1 = e.1)).map Prod.snd with
        | nil => simp [combineBucket]
        | cons v vs =>
          simp only [combineBucket, List.sum_cons, List.length_cons]
          congr 1
          congr 1
          all_goals first | ring | omega | norm_num
      | some b =>
        have hm : mapGet (addValue m e.1 e.2) e.1 =
            some ⟨b.solved + e.2, b.count + 1, max b.max 10⟩ := by
          rw [addValue, hb, mapGet_mapSet, if_pos rfl]
          simp [Option.getD]
        rw [hm]
        cases hvs : (es.filter (fun q => q.1 = e.1)).map Prod.snd with
        | nil =>
          simp only [combineBucket, List.sum_cons, List.sum_nil,
            List.length_cons, List.length_nil]
          congr 1
          congr 1
          all_goals first | ring | omega | norm_num
        | cons v vs =>
          simp only [combineBucket, List.sum_cons, List.length_cons,
            max_ten_ten]
          congr 1
          congr 1
          all_goals first | ring | omega | norm_num
    · have hm : mapGet (addValue m e.1 e.2) d = mapGet m d := by
        rw [addValue, mapGet_mapSet, if_neg (fun h => hd h.symm)]
      rw [hm, List.filter_cons_of_neg (by simpa using hd)]

theorem mapGet_eq_none_iff {β : Type} (m : List (Int × β)) (d : Int) :
    mapGet m d = none ↔ d ∉ m.map Prod.fst := by
  simp only [mapGet, Option.map_eq_none', List.find?_eq_none,
    decide_eq_true_eq, List.mem_map]
  constructor
  · rintro h ⟨p, hp, rfl⟩
    exact h p hp rfl
  · intro h p hp hpd
    exact h ⟨p, hp, hpd⟩

theorem mapGet_of_mem_nodup {β : Type} {m : List (Int × β)}
    (hn : (m.map Prod.fst).Nodup) {p : Int × β} (hp : p ∈ m) :
    mapGet m p.1 = some p.2 := by
  have hs : (m.find? (fun q => q.1 = p.1)).isSome :=
    List.find?_isSome.mpr ⟨p, hp, by simp⟩
  obtain ⟨q, hq⟩ := Option.isSome_iff_exists.mp hs
  have hqm := List.mem_of_find?_eq_some hq
  have hqk : q.1 = p.1 := by simpa using List.find?_some hq
  have : q = p := nodupKeys_entry_eq hn hqm hp hqk
  rw [mapGet, hq, this]
  rfl

theorem foldl_addValue_nodupKeys (evs : List (Int × ℚ)) :
    ∀ m : List (Int × Bucket), (m.map Prod.fst).Nodup →
      (((evs.foldl (fun m e => addValue m e.1 e.2) m)).map Prod.fst).Nodup := by
  induction evs with
  | nil => intro m h; exact h
  | cons e es ih =>
    intro m h
    rw [List.foldl_cons]
    exact ih _ (by rw [addValue]; exact mapSet_nodupKeys _ _ h)

/-- The spec-side chart point for one day: the day paired with the rounded
average of its contribution values. -/
def eventPoint (evs : List (Int × ℚ)) (d : Int) : Int × ℚ :=
  let vals := (evs.filter (fun e => e.1 = d)).map Prod.snd
  (d, round2 (vals.sum / vals.length))

theorem pairLe_trans :
    ∀ a b c : Int × ℚ, (a.1 ≤ b.1 : Bool) → (b.1 ≤ c.1 : Bool) →
      (a.1 ≤ c.1 : Bool) := by
  intro a b c hab hbc
  simp only [decide_eq_true_eq] at *
  omega

theorem pairLe_total :
    ∀ a b : Int × ℚ, ((a.1 ≤ b.1 : Bool) || (b.1 ≤ a.1 : Bool)) := by
  intro a b
  simp only [Bool.or_eq_true, decide_eq_true_eq]
  omega

theorem intLe_trans : ∀ a b c : Int, (a ≤ b : Bool) → (b ≤ c : Bool) →
    (a ≤ c : Bool) := by
  intro a b c hab hbc
  simp only [decide_eq_true_eq] at *
  omega

theorem intLe_total : ∀ a b : Int, ((a ≤ b : Bool) || (b ≤ a : Bool)) := by
  intro a b
  simp only [Bool.or_eq_true, decide_eq_true_eq]
  omega

/-- The heart of the series aggregation: folding all `(day, value)` events
through `addValue`, averaging each bucket and sorting by day yields exactly
one point per contributing day, in ascending day order, carrying the
rounded average of that day's values. -/
theorem seriesOfEvents_eq (evs : List (Int × ℚ)) :
    ((evs.foldl (fun m e => addValue m e.1 e.2) []).map bucketPoint).mergeSort
        (fun a b => a.1 ≤ b.1) =
      (((evs.map Prod.fst).dedup).mergeSort (fun a b => a ≤ b)).map
        (eventPoint evs) := by
  have hnodup :
      (((evs.foldl (fun m e => addValue m e.1 e.2) [])).map Prod.fst).Nodup :=
    foldl_addValue_nodupKeys evs [] (by simp)
  have hget : ∀ d, mapGet (evs.foldl (fun m e => addValue m e.1 e.2) []) d =
      combineBucket none ((evs.filter (fun e => e.1 = d)).map Prod.snd) := by
    intro d
    rw [foldl_addValue_get]
    rfl
  have hentry : ∀ p ∈ evs.foldl (fun m e => addValue m e.1 e.2) [],
      bucketPoint p = eventPoint evs p.1 := by
    intro p hp
    have h1 := mapGet_of_mem_nodup hnodup hp
    rw [hget p.1] at h1
    cases hvs : (evs.filter (fun e => e.1 = p.1)).map Prod.snd with
    | nil => rw [hvs] at h1; simp [combineBucket] at h1
    | cons v vs =>
      rw [hvs] at h1
      simp only [combineBucket, Option.some.injEq] at h1
      rw [bucketPoint, ← h1]
      simp [eventPoint, hvs]
  have hmap : (evs.foldl (fun m e => addValue m e.1 e.2) []).map bucketPoint =
      ((evs.foldl (fun m e => addValue m e.1 e.2) []).map Prod.fst).map
        (eventPoint evs) := by
    rw [List.map_map]
    exact List.map_congr_left hentry
  have hkeys : ∀ d,
      d ∈ (evs.foldl (fun m e => addValue m e.1 e.2) []).map Prod.fst ↔
        d ∈ (evs.map Prod.fst).dedup := by
    intro d
    rw [List.mem_dedup]
    constructor
    · intro hd
      have hne : mapGet (evs.foldl (fun m e => addValue m e.1 e.2) []) d ≠ none := by
        intro h
        exact (mapGet_eq_none_iff _ d).mp h hd
      rw [hget d] at hne
      cases hvs : (evs.filter (fun e => e.1 = d)).map Prod.snd with
      | nil => rw [hvs] at hne; simp [combineBucket] at hne
      | cons v vs =>
        have hfne : evs.filter (fun e => e.1 = d) ≠ [] := by
          intro h
          rw [h] at hvs
          simp at hvs
        obtain ⟨e, he⟩ := List.exists_mem_of_ne_nil _ hfne
        have hee := List.mem_filter.mp he
        exact List.mem_map.mpr ⟨e, hee.1, by simpa using hee.2⟩
    · intro hd
      obtain ⟨e, he, rfl⟩ := List.mem_map.mp hd
      have hef : e ∈ evs.filter (fun q => q.1 = e.1) :=
        List.mem_filter.mpr ⟨he, by simp⟩
      have hne : mapGet (evs.foldl (fun m e => addValue m e.1 e.2) []) e.1 ≠ none := by
        rw [hget e.1]
        cases hvs : (evs.filter (fun q => q.1 = e.1)).map Prod.snd with
        | nil =>
          rw [List.map_eq_nil_iff] at hvs
          rw [hvs] at hef
          simp at hef
        | cons v vs => simp [combineBucket]
      by_contra hmem
      exact hne ((mapGet_eq_none_iff _ e.1).mpr hmem)
  have hperm :
      ((evs.foldl (fun m e => addValue m e.1 e.2) []).map Prod.fst).Perm
        ((evs.map Prod.fst).dedup) :=
    (List.perm_ext_iff_of_nodup hnodup ((evs.map Prod.fst).nodup_dedup)).mpr hkeys
  refine @List.Perm.eq_of_sorted _ (fun a b : Int × ℚ => a.1 ≤ b.1) _ _
      ?_ ?_ ?_ ?_
  · intro a b ha hb hab hba
    rw [List.mem_mergeSort, hmap] at ha
    obtain ⟨d, _, rfl⟩ := List.mem_map.mp ha
    obtain ⟨d', _, rfl⟩ := List.mem_map.mp hb
    have hdd : d = d' := by
      have h1 : d ≤ d' := by simpa [eventPoint] using hab
      have h2 : d' ≤ d := by simpa [eventPoint] using hba
      omega
    rw [hdd]
  · exact (List.sorted_mergeSort pairLe_trans pairLe_total _).imp
      (fun h => by simpa using h)
  · rw [List.pairwise_map]
    exact (List.sorted_mergeSort intLe_trans intLe_total _).imp
      (fun h => by simpa [eventPoint] using h)
  · refine (List.mergeSort_perm _ _).trans ?_
    rw [hmap]
    exact (hperm.map _).trans
      (((List.mergeSort_perm ((evs.map Prod.fst).dedup) _).map _).symm)

/-- `buildAggregateSeries` meets its specification: one point per
contributing day, value = rounded average of that day's contributions,
non-contributing days omitted, output ascending by day. -/
theorem buildAggregateSeries_eq_specSeries (t : PType)
    (participants : List Participant) (challenges : List DailyChallenge) :
    buildAggregateSeries t participants challenges =
      specSeries t participants challenges := by
  rw [buildAggregateSeries, specSeries,
    seriesOfEvents_eq (perfEvents t participants ++ predEvents t participants challenges)]
  apply List.map_congr_left
  intro d _
  simp [eventPoint, dayContribs]

/-- Participant `P` of the spec's series merge example: cohort LLM, one
performance point `(day: 3, solved: 4)`, author of the correct prediction. -/
def exampleP : Participant :=
  ⟨"P", "P", PType.LLM, none, none, [⟨some 3, some 4⟩]⟩

/-- Participant `Q` of the series merge example: cohort LLM, no performance
points, author of the incorrect prediction. -/
def exampleQ : Participant :=
  ⟨"Q", "Q", PType.LLM, none, none, []⟩

/-- The day-3 challenge of the series merge example with its two LLM
predictions, one correct and one not. -/
def exampleChallenge : DailyChallenge :=
  ⟨"c1", 3, [⟨"P", true⟩, ⟨"Q", false⟩]⟩

/-- C6: for every cohort and record set the aggregate series emits exactly
one point per day with at least one contribution (performance points
clamped to [0,10]; predictions as 10/0 on the challenge's day, skipping
non-cohort or unresolved participants), valued at the day's average
contribution rounded to two decimals, with empty days omitted and output
sorted ascending by day; the spec's example evaluates to
`(4 + 10 + 0) / 3` rounded, i.e. `4.67`. -/
theorem buildAggregateSeries_matches_spec :
    (∀ (t : PType) (participants : List Participant)
        (challenges : List DailyChallenge),
      buildAggregateSeries t participants challenges =
        specSeries t participants challenges) ∧
    buildAggregateSeries PType.LLM [exampleP, exampleQ] [exampleChallenge] =
      [(3, 467/100)] := by
  refine ⟨buildAggregateSeries_eq_specSeries, ?_⟩
  have hperf : perfEvents PType.LLM [exampleP, exampleQ] = [(3, 4)] := by
    norm_num [perfEvents, exampleP, exampleQ, List.flatMap, List.filterMap]
  have hpred : predEvents PType.LLM [exampleP, exampleQ] [exampleChallenge] =
      [(3, 10), (3, 0)] := by
    simp +decide [predEvents, exampleP, exampleQ, exampleChallenge,
      participantById, List.flatMap, List.filterMap, List.find?]
  rw [buildAggregateSeries, hperf, hpred]
  simp only [List.singleton_append]
  have hfold : List.foldl (fun m e => addValue m e.1 e.2) []
      [((3:Int), (4:ℚ)), (3, 10), (3, 0)] =
      [(3, ⟨14, 3, 10⟩)] := by
    norm_num [addValue, mapSet, mapGet, List.find?, Option.getD]
  rw [hfold]
  have hpoint : bucketPoint ((3:Int), (⟨14, 3, 10⟩ : Bucket)) = (3, 467/100) := by
    norm_num [bucketPoint, round2, Int.floor_eq_iff]
  rw [List.map_cons, List.map_nil, hpoint, List.mergeSort_singleton]

theorem perfEvents_val_bounds (t : PType) (participants : List Participant) :
    ∀ e ∈ perfEvents t participants, 0 ≤ e.2 ∧ e.2 ≤ 10 := by
  intro e he
  rw [perfEvents, List.mem_flatMap] at he
  obtain ⟨p, _, he⟩ := he
  by_cases hpt : p.type = t
  · rw [if_pos hpt, List.mem_filterMap] at he
    obtain ⟨pt, _, heq⟩ := he
    cases hd : pt.day with
    | none => rw [hd] at heq; simp at heq
    | some d =>
      cases hs : pt.solved with
      | none => rw [hd, hs] at heq; simp at heq
      | some s =>
        rw [hd, hs] at heq
        simp only [Option.some.injEq] at heq
        rw [← heq]
        constructor
        · exact le_min (le_max_right s 0) (by norm_num)
        · exact min_le_right _ _
  · rw [if_neg hpt] at he
    simp at he

theorem predEvents_val (t : PType) (participants : List Participant)
    (challenges : List DailyChallenge) :
    ∀ e ∈ predEvents t participants challenges, e.2 = 10 ∨ e.2 = 0 := by
  intro e he
  rw [predEvents, List.mem_flatMap] at he
  obtain ⟨c, _, he⟩ := he
  rw [List.mem_filterMap] at he
  obtain ⟨pr, _, heq⟩ := he
  cases hpa : participantById participants pr.participantId with
  | none => rw [hpa] at heq; simp at heq
  | some pa =>
    rw [hpa] at heq
    have heq' : (if pa.type = t then
        some (c.day, if pr.isCorrect = true then (10 : ℚ) else 0)
      else none) = some e := heq
    by_cases hpt : pa.type = t
    · rw [if_pos hpt] at heq'
      simp only [Option.some.injEq] at heq'
      cases hc : pr.isCorrect <;> rw [hc] at heq' <;> rw [← heq'] <;> simp
    · rw [if_neg hpt] at heq'
      simp at heq'

theorem round2_nonneg {q : ℚ} (h : 0 ≤ q) : 0 ≤ round2 q := by
  rw [round2]
  apply div_nonneg _ (by norm_num)
  have h1 : (0 : ℚ) ≤ q * 100 + 1 / 2 := by linarith
  exact_mod_cast Int.floor_nonneg.mpr h1

theorem round2_le_ten {q : ℚ} (h : q ≤ 10) : round2 q ≤ 10 := by
  rw [round2, div_le_iff (by norm_num)]
  have h1 : q * 100 + 1 / 2 ≤ 1000 + 1 / 2 := by linarith
  have h2 : ⌊q * 100 + 1 / 2⌋ ≤ ⌊(1000 + 1 / 2 : ℚ)⌋ := Int.floor_le_floor h1
  have h3 : ⌊(1000 + 1 / 2 : ℚ)⌋ = 1000 := by
    norm_num [Int.floor_eq_iff]
  rw [h3] at h2
  calc (⌊q * 100 + 1 / 2⌋ : ℚ) ≤ (1000 : ℚ) := by exact_mod_cast h2
    _ = 10 * 100 := by norm_num

theorem avg_bounds {vs : List ℚ} (h : ∀ v ∈ vs, 0 ≤ v ∧ v ≤ 10)
    (hne : vs ≠ []) :
    0 ≤ vs.sum / vs.length ∧ vs.sum / vs.length ≤ 10 := by
  have hlen : 0 < (vs.length : ℚ) := by
    have h0 : 0 < vs.length := List.length_pos.mpr hne
    exact_mod_cast h0
  have hsum0 : 0 ≤ vs.sum := List.sum_nonneg (fun v hv => (h v hv).1)
  have hsum10 : vs.sum ≤ vs.length • (10 : ℚ) :=
    List.sum_le_card_nsmul vs 10 (fun v hv => (h v hv).2)
  rw [nsmul_eq_mul] at hsum10
  constructor
  · exact div_nonneg hsum0 hlen.le
  · rw [div_le_iff hlen]
    linarith

theorem dayContribs_bounds (t : PType) (participants : List Participant)
    (challenges : List DailyChallenge) (d : Int) :
    ∀ v ∈ dayContribs t participants challenges d, 0 ≤ v ∧ v ≤ 10 := by
  intro v hv
  rw [dayContribs, List.mem_map] at hv
  obtain ⟨e, he, rfl⟩ := hv
  have he' := (List.mem_filter.mp he).1
  rw [List.append_eq, List.mem_append] at he'
  rcases he' with h1 | h1
  · exact perfEvents_val_bounds t participants e h1
  · rcases predEvents_val t participants challenges e h1 with h2 | h2 <;>
      rw [h2] <;> norm_num

/-- Every value the aggregate series emits lies in `[0, 10]`. -/
theorem aggregate_val_bounds (t : PType) (participants : List Participant)
    (challenges : List DailyChallenge) :
    ∀ p ∈ buildAggregateSeries t participants challenges,
      0 ≤ p.2 ∧ p.2 ≤ 10 := by
  intro p hp
  rw [buildAggregateSeries_eq_specSeries, specSeries, List.mem_map] at hp
  obtain ⟨d, hd, rfl⟩ := hp
  rw [List.mem_mergeSort, List.mem_dedup, List.mem_map] at hd
  obtain ⟨e, he, rfl⟩ := hd
  have hne : dayContribs t participants challenges e.1 ≠ [] := by
    rw [dayContribs]
    intro hnil
    rw [List.map_eq_nil_iff, List.filter_eq_nil_iff] at hnil
    exact hnil e (by rw [List.append_eq]; exact he) (by simp)
  have hb := avg_bounds (dayContribs_bounds t participants challenges e.1) hne
  exact ⟨round2_nonneg hb.1, round2_le_ten hb.2⟩

/-- Participant `R` (LLM, no performance data): author of the one correct
prediction in the three-prediction example. -/
def exampleR : Participant := ⟨"R", "R", PType.LLM, none, none, []⟩

/-- Participant `S` (LLM, no performance data): an incorrect predictor. -/
def exampleS : Participant := ⟨"S", "S", PType.LLM, none, none, []⟩

/-- Participant `T` (LLM, no performance data): an incorrect predictor. -/
def exampleT : Participant := ⟨"T", "T", PType.LLM, none, none, []⟩

/-- A day-1 challenge with three LLM predictions, exactly one correct, so
`10 * K / N = 10 / 3` is not representable in two decimals. -/
def exampleChallengeThree : DailyChallenge :=
  ⟨"c2", 1, [⟨"R", true⟩, ⟨"S", false⟩, ⟨"T", false⟩]⟩

theorem exampleRST_perfEvents :
    perfEvents PType.LLM [exampleR, exampleS, exampleT] = [] := by
  simp +decide [perfEvents, exampleR, exampleS, exampleT, List.flatMap]

theorem exampleRST_predEvents :
    predEvents PType.LLM [exampleR, exampleS, exampleT]
      [exampleChallengeThree] = [(1, 10), (1, 0), (1, 0)] := by
  simp +decide [predEvents, exampleR, exampleS, exampleT,
    exampleChallengeThree, participantById, List.flatMap, List.filterMap,
    List.find?]

theorem exampleRST_eval :
    buildAggregateSeries PType.LLM [exampleR, exampleS, exampleT]
      [exampleChallengeThree] = [(1, 333/100)] := by
  rw [buildAggregateSeries, exampleRST_perfEvents, exampleRST_predEvents]
  simp only [List.nil_append]
  have hfold : List.foldl (fun m e => addValue m e.1 e.2) []
      [((1:Int), (10:ℚ)), (1, 0), (1, 0)] = [(1, ⟨10, 3, 10⟩)] := by
    norm_num [addValue, mapSet, mapGet, List.find?, Option.getD]
  rw [hfold]
  have hpoint : bucketPoint ((1:Int), (⟨10, 3, 10⟩ : Bucket)) =
      (1, 333/100) := by
    norm_num [bucketPoint, round2, Int.floor_eq_iff]
  rw [List.map_cons, List.map_nil, hpoint, List.mergeSort_singleton]

/-- C7 counterexample: a day whose only contributions are three
challenge predictions with one correct yields `3.33`, not the exact
fraction `10 * 1 / 3` the claim states. -/
theorem aggregate_challenge_exact_counterexample :
    buildAggregateSeries PType.LLM [exampleR, exampleS, exampleT]
        [exampleChallengeThree] = [(1, 333/100)] ∧
      ((333 : ℚ) / 100) ≠ 10 * 1 / 3 :=
  ⟨exampleRST_eval, by norm_num⟩

theorem sum_ten_or_zero (l : List (Int × ℚ))
    (h : ∀ e ∈ l, e.2 = 10 ∨ e.2 = 0) :
    (l.map Prod.snd).sum =
      10 * ((l.filter (fun e => e.2 = (10:ℚ))).length : ℚ) := by
  induction l with
  | nil => simp
  | cons e es ih =>
    have he := h e (List.mem_cons_self e es)
    have ih' := ih (fun x hx => h x (List.mem_cons_of_mem e hx))
    rcases he with h10 | h0
    · rw [List.map_cons, List.sum_cons,
        List.filter_cons_of_pos (by simp [h10]), List.length_cons, ih', h10]
      push_cast
      ring
    · rw [List.map_cons, List.sum_cons,
        List.filter_cons_of_neg (by simp [h0]), ih', h0]
      ring

theorem aggregate_challenge_only (t : PType) (participants : List Participant)
    (challenges : List DailyChallenge) (d : Int)
    (hperf : (perfEvents t participants).filter (fun e => e.1 = d) = [])
    (hpred :
      (predEvents t participants challenges).filter (fun e => e.1 = d) ≠ []) :
    (d, round2 (10 *
        ((((predEvents t participants challenges).filter
            (fun e => e.1 = d)).filter (fun e => e.2 = (10:ℚ))).length : ℚ) /
        (((predEvents t participants challenges).filter
            (fun e => e.1 = d)).length : ℚ))) ∈
      buildAggregateSeries t participants challenges := by
  rw [buildAggregateSeries_eq_specSeries, specSeries]
  have hvals : dayContribs t participants challenges d =
      ((predEvents t participants challenges).filter
        (fun e => e.1 = d)).map Prod.snd := by
    rw [dayContribs, List.append_eq, List.filter_append, hperf,
      List.nil_append]
  obtain ⟨e, he⟩ := List.exists_mem_of_ne_nil _ hpred
  have hef := List.mem_filter.mp he
  have hd_mem : d ∈ (((perfEvents t participants ++
      predEvents t participants challenges)).map Prod.fst).dedup := by
    rw [List.mem_dedup, List.mem_map]
    exact ⟨e, List.mem_append_right _ hef.1, by simpa using hef.2⟩
  refine List.mem_map.mpr ⟨d, by rw [List.mem_mergeSort]; exact hd_mem, ?_⟩
  have hsum : (((predEvents t participants challenges).filter
      (fun e => e.1 = d)).map Prod.snd).sum =
      10 * ((((predEvents t participants challenges).filter
        (fun e => e.1 = d)).filter (fun e => e.2 = (10:ℚ))).length : ℚ) :=
    sum_ten_or_zero _
      (fun x hx => predEvents_val t participants challenges x
        (List.mem_filter.mp hx).1)
  show (d, round2 ((dayContribs t participants challenges d).sum /
      ((dayContribs t participants challenges d).length : ℚ))) = _
  rw [hvals, hsum, List.length_map]

/-- C7 (amended): every value emitted by the aggregate series lies in
`[0, 10]`, and a day whose only contributions are challenge-derived, with
`N` counted predictions of which `K` are correct, carries the value
`10 * K / N` rounded to two decimal places. -/
theorem aggregate_values_in_range :
    (∀ (t : PType) (participants : List Participant)
        (challenges : List DailyChallenge),
      ∀ p ∈ buildAggregateSeries t participants challenges,
        0 ≤ p.2 ∧ p.2 ≤ 10) ∧
    (∀ (t : PType) (participants : List Participant)
        (challenges : List DailyChallenge) (d : Int),
      (perfEvents t participants).filter (fun e => e.1 = d) = [] →
      (predEvents t participants challenges).filter (fun e => e.1 = d) ≠ [] →
      (d, round2 (10 *
          ((((predEvents t participants challenges).filter
              (fun e => e.1 = d)).filter (fun e => e.2 = (10:ℚ))).length : ℚ) /
          (((predEvents t participants challenges).filter
              (fun e => e.1 = d)).length : ℚ))) ∈
        buildAggregateSeries t participants challenges) :=
  ⟨aggregate_val_bounds, aggregate_challenge_only⟩

/-- Witness: the range bound and the challenge-only rounding law evaluated
on the three-prediction example. -/
theorem aggregate_values_in_range_witness :
    (0 ≤ ((333 : ℚ) / 100) ∧ ((333 : ℚ) / 100) ≤ 10) ∧
    ((1 : Int), round2 (10 * 1 / 3)) ∈
      buildAggregateSeries PType.LLM [exampleR, exampleS, exampleT]
        [exampleChallengeThree] := by
  constructor
  · exact aggregate_values_in_range.1 PType.LLM
      [exampleR, exampleS, exampleT] [exampleChallengeThree]
      ((1 : Int), (333/100 : ℚ))
      (by rw [exampleRST_eval]; exact List.mem_cons_self _ _)
  · have h := aggregate_values_in_range.2 PType.LLM
      [exampleR, exampleS, exampleT] [exampleChallengeThree] 1
      (by rw [exampleRST_perfEvents]; rfl)
      (by rw [exampleRST_predEvents]; simp +decide)
    rw [exampleRST_predEvents] at h
    simp +decide [List.filter] at h
    convert h using 3
    norm_num

/-- The per-status base alpha of `paletteByStatus` in `renderCalendar`. -/
def baseAlpha : Status → ℚ
  | Status.agi => 35/100
  | Status.evaluating => 32/100
  | Status.pending => 24/100
  | Status.missed => 32/100

/-- The intensity scalar computed per day card in `renderCalendar`: the
status base alpha, replaced by the status-specific linear function of
`accuracyRatio = clamp(correct / 10, 0, 1)` when `correct` is present, and
finally clamped to `[0.12, 0.95]`. -/
def dayAlpha (status : Status) (correct : Option ℚ) : ℚ :=
  let alpha :=
    match correct with
    | none => baseAlpha status
    | some c =>
      let accFrac := min (max (c / 10) 0) 1
      match status with
      | Status.agi => 25/100 + accFrac * (7/10)
      | Status.missed => 25/100 + (1 - accFrac) * (5/10)
      | Status.evaluating => 25/100 + accFrac * (4/10)
      | Status.pending => 18/100 + accFrac * (3/10)
  min (max alpha (12/100)) (95/100)

/-- C8: for every status and optional accuracy, the intensity scalar lies
within `[0.12, 0.95]` inclusive. -/
theorem dayAlpha_in_range (status : Status) (correct : Option ℚ) :
    12/100 ≤ dayAlpha status correct ∧ dayAlpha status correct ≤ 95/100 := by
  rw [dayAlpha.eq_def]
  exact ⟨le_min (le_max_right _ _) (by norm_num), min_le_right _ _⟩

/-- The name/type pair `renderDailyList` reads from a resolved participant
(the placeholder `{ name: "Unknown", type: "LLM" }` has exactly these two
fields). -/
structure ResolvedIdentity where
  name : String
  type : PType
deriving DecidableEq, Repr

/-- `participantLookup.get(prediction.participantId) ||
{ name: "Unknown", type: "LLM" }` from `renderDailyList`. -/
def resolveParticipant (participants : List Participant) (pid : String) :
    ResolvedIdentity :=
  match participantById participants pid with
  | some p => ⟨p.name, p.type⟩
  | none => ⟨"Unknown", PType.LLM⟩

/-- C9: resolving a prediction's participant reference is total: a matching
participant is returned as-is, and a dangling reference yields the
synthetic `{name: "Unknown", type: "LLM"}` placeholder rather than an
error. -/
theorem resolveParticipant_total (participants : List Participant)
    (pid : String) :
    (∃ p ∈ participants, p.id = pid ∧
        resolveParticipant participants pid = ⟨p.name, p.type⟩) ∨
      ((∀ p ∈ participants, p.id ≠ pid) ∧
        resolveParticipant participants pid = ⟨"Unknown", PType.LLM⟩) := by
  cases hf : participantById participants pid with
  | none =>
    right
    constructor
    · intro p hp hpid
      rw [participantById, List.find?_eq_none] at hf
      exact hf p (List.mem_reverse.mpr hp) (by simp [hpid])
    · rw [resolveParticipant, hf]
  | some p =>
    left
    have hpm : p ∈ participants :=
      List.mem_reverse.mp (List.mem_of_find?_eq_some hf)
    have hpid : p.id = pid := by simpa using List.find?_some hf
    exact ⟨p, hpm, hpid, by rw [resolveParticipant, hf]⟩

/-- Witness: resolution on a one-participant set, once with a matching id
and once with a dangling one. -/
theorem resolveParticipant_total_witness :
    ((∃ p ∈ [exampleR], p.id = "R" ∧
        resolveParticipant [exampleR] "R" = ⟨p.name, p.type⟩) ∨
      ((∀ p ∈ [exampleR], p.id ≠ "R") ∧
        resolveParticipant [exampleR] "R" = ⟨"Unknown", PType.LLM⟩)) ∧
    ((∃ p ∈ [exampleR], p.id = "Z" ∧
        resolveParticipant [exampleR] "Z" = ⟨p.name, p.type⟩) ∨
      ((∀ p ∈ [exampleR], p.id ≠ "Z") ∧
        resolveParticipant [exampleR] "Z" = ⟨"Unknown", PType.LLM⟩)) :=
  ⟨resolveParticipant_total [exampleR] "R",
    resolveParticipant_total [exampleR] "Z"⟩

/-- C10: a prediction whose `participantId` matches no participant is
skipped entirely by `buildAggregateSeries`: deleting it from its
challenge's prediction list leaves the whole series unchanged, for every
cohort and every day. -/
theorem unmatched_prediction_no_contribution (t : PType)
    (participants : List Participant) (chs1 chs2 : List DailyChallenge)
    (cid : String) (cday : Int) (l1 l2 : List Prediction) (pre : Prediction)
    (h : ∀ p ∈ participants, p.id ≠ pre.participantId) :
    buildAggregateSeries t participants
        (chs1 ++ ⟨cid, cday, l1 ++ pre :: l2⟩ :: chs2) =
      buildAggregateSeries t participants
        (chs1 ++ ⟨cid, cday, l1 ++ l2⟩ :: chs2) := by
  have hpid : participantById participants pre.participantId = none := by
    rw [participantById, List.find?_eq_none]
    intro p hp
    simp only [decide_eq_true_eq]
    exact h p (List.mem_reverse.mp hp)
  have hpred : predEvents t participants
      (chs1 ++ ⟨cid, cday, l1 ++ pre :: l2⟩ :: chs2) =
      predEvents t participants (chs1 ++ ⟨cid, cday, l1 ++ l2⟩ :: chs2) := by
    rw [predEvents, predEvents, List.flatMap_append, List.flatMap_append]
    congr 1
    rw [List.flatMap_cons, List.flatMap_cons]
    congr 1
    show List.filterMap _ (l1 ++ pre :: l2) = List.filterMap _ (l1 ++ l2)
    rw [List.filterMap_append, List.filterMap_append, List.filterMap_cons,
      hpid]
  rw [buildAggregateSeries, buildAggregateSeries, hpred]

/-- Witness: deleting a dangling prediction from a concrete one-challenge
record set leaves the aggregate series unchanged. -/
theorem unmatched_prediction_no_contribution_witness :
    buildAggregateSeries PType.LLM [exampleR]
        [⟨"c3", 2, [⟨"Z", true⟩]⟩] =
      buildAggregateSeries PType.LLM [exampleR] [⟨"c3", 2, []⟩] := by
  have h := unmatched_prediction_no_contribution PType.LLM [exampleR]
    [] [] "c3" 2 [] [] ⟨"Z", true⟩ (by decide)
  simpa using h

end FutureArena
